import Mathlib

/-!
Verification of the Base58 / Base58Check codec in `src/base58.cpp`.

The C++ code is shallowly embedded: bytes are `Nat` values (< 256 where it
matters), byte vectors are `List Nat`, C strings are `List Char`.  The
arbitrary-precision working buffers of `EncodeBase58` / `DecodeBase58` are
kept little-endian (the C++ keeps them big-endian and iterates with reverse
iterators, which is the same traversal order), so `mulAddStep` walks the
digits from least significant to most significant exactly like the C++
`for (reverse_iterator it = b.rbegin(); ...)` loops.

External collaborators that are not part of `src/` (the `Hash` function and
the `CChainParams` provider) are passed as explicit parameters, following the
specification's boundary description.
-/

namespace B58

/-- The Base58 alphabet, `pszBase58` in the source: all alphanumeric
characters except `0`, `I`, `O` and `l`. -/
def pszBase58 : List Char :=
  ['1', '2', '3', '4', '5', '6', '7', '8', '9',
   'A', 'B', 'C', 'D', 'E', 'F', 'G', 'H', 'J', 'K', 'L', 'M', 'N',
   'P', 'Q', 'R', 'S', 'T', 'U', 'V', 'W', 'X', 'Y', 'Z',
   'a', 'b', 'c', 'd', 'e', 'f', 'g', 'h', 'i', 'j', 'k', 'm',
   'n', 'o', 'p', 'q', 'r', 's', 't', 'u', 'v', 'w', 'x', 'y', 'z']

/-- C `isspace` in the default locale, as used by `DecodeBase58`. -/
def isspaceC (c : Char) : Bool :=
  c == ' ' || c == '\t' || c == '\n' || c == Char.ofNat 11 ||
  c == Char.ofNat 12 || c == '\r'

/-- Character for a base-58 digit: `pszBase58[*it]` in the source. -/
def b58Char (d : Nat) : Char := pszBase58.getD d '?'

/-- One pass of the inner carry-propagation loop of the source
(`carry += factor * (*it); *it = carry % modulus; carry /= modulus;`),
walking the buffer from least significant digit to most significant.
Returns the rewritten buffer and the leftover carry that the C++ code
feeds to `assert(carry == 0)`. -/
def mulAddStep (factor modulus : Nat) : Nat → List Nat → List Nat × Nat
  | carry, [] => ([], carry)
  | carry, d :: ds =>
    let r := mulAddStep factor modulus ((carry + factor * d) / modulus) ds
    ((carry + factor * d) % modulus :: r.1, r.2)

/-- The outer byte loop of `EncodeBase58` (`while (pbegin != pend)`),
applying `b58 = b58 * 256 + *pbegin` to the working buffer. -/
def encodeLoop : List Nat → List Nat → List Nat
  | buf, [] => buf
  | buf, b :: bs => encodeLoop (mulAddStep 256 58 b buf).1 bs

/-- The leftover carries produced at `assert(carry == 0)` during the
`EncodeBase58` byte loop, one per input byte. -/
def encodeCarries : List Nat → List Nat → List Nat
  | _, [] => []
  | buf, b :: bs =>
    let r := mulAddStep 256 58 b buf
    r.2 :: encodeCarries r.1 bs

/-- `EncodeBase58(pbegin, pend)` from the source: strip and count leading
zero bytes, long-divide the remaining big-endian base-256 number into a
base-58 buffer of `(pend - pbegin) * 138 / 100 + 1` digits, strip leading
zero digits, and emit `zeroes` copies of `'1'` followed by the alphabet
characters of the remaining digits. -/
def EncodeBase58 (bytes : List Nat) : List Char :=
  let zeroes := (bytes.takeWhile (· == 0)).length
  let rest := bytes.dropWhile (· == 0)
  let b58 := encodeLoop (List.replicate (rest.length * 138 / 100 + 1) 0) rest
  List.replicate zeroes '1' ++ (b58.reverse.dropWhile (· == 0)).map b58Char

/-- The character loop of `DecodeBase58` (`while (*psz && !isspace(*psz))`):
look each character up in the alphabet (`strchr`), fail on a miss, and apply
`b256 = b256 * 58 + ch`.  On success returns the final buffer together with
the unconsumed remainder of the string (which starts with whitespace or is
empty). -/
def decodeLoop : List Nat → List Char → Option (List Nat × List Char)
  | buf, [] => some (buf, [])
  | buf, c :: cs =>
    if isspaceC c then some (buf, c :: cs)
    else match pszBase58.findIdx? (· == c) with
      | none => none
      | some i => decodeLoop (mulAddStep 58 256 i buf).1 cs

/-- The leftover carries produced at `assert(carry == 0)` during the
`DecodeBase58` character loop, one per processed alphabet character. -/
def decodeCarries : List Nat → List Char → List Nat
  | _, [] => []
  | buf, c :: cs =>
    if isspaceC c then []
    else match pszBase58.findIdx? (· == c) with
      | none => []
      | some i =>
        let r := mulAddStep 58 256 i buf
        r.2 :: decodeCarries r.1 cs

/-- `DecodeBase58(psz, vch)` from the source: skip leading whitespace, skip
and count leading `'1'`s, size the base-256 buffer as
`strlen(psz) * 733 / 1000 + 1`, run the character loop, require only
whitespace after it, strip leading zero bytes of the buffer and prepend
`zeroes` zero bytes.  `none` models `return false`. -/
def DecodeBase58 (s : List Char) : Option (List Nat) :=
  let s1 := s.dropWhile isspaceC
  let zeroes := (s1.takeWhile (· == '1')).length
  let s2 := s1.dropWhile (· == '1')
  match decodeLoop (List.replicate (s2.length * 733 / 1000 + 1) 0) s2 with
  | none => none
  | some (buf, rest) =>
    if (rest.dropWhile isspaceC).isEmpty then
      some (List.replicate zeroes 0 ++ buf.reverse.dropWhile (· == 0))
    else none

/-! ### Arithmetic facts about the carry-propagation loop -/

theorem mulAddStep_length (factor modulus : Nat) :
    ∀ (carry : Nat) (ds : List Nat),
      (mulAddStep factor modulus carry ds).1.length = ds.length := by
  intro carry ds
  induction ds generalizing carry with
  | nil => rfl
  | cons d ds ih => simp [mulAddStep, ih]

theorem mulAddStep_lt (factor modulus : Nat) (hm : 0 < modulus) :
    ∀ (carry : Nat) (ds : List Nat),
      ∀ x ∈ (mulAddStep factor modulus carry ds).1, x < modulus := by
  intro carry ds
  induction ds generalizing carry with
  | nil => simp [mulAddStep]
  | cons d ds ih =>
    simp only [mulAddStep, List.mem_cons]
    rintro x (rfl | hx)
    · exact Nat.mod_lt _ hm
    · exact ih _ x hx

theorem mulAddStep_val (factor modulus : Nat) :
    ∀ (carry : Nat) (ds : List Nat),
      Nat.ofDigits modulus (mulAddStep factor modulus carry ds).1 +
        modulus ^ ds.length * (mulAddStep factor modulus carry ds).2 =
      carry + factor * Nat.ofDigits modulus ds := by
  intro carry ds
  induction ds generalizing carry with
  | nil => simp [mulAddStep, Nat.ofDigits_nil]
  | cons d ds ih =>
    simp only [mulAddStep, Nat.ofDigits_cons, List.length_cons]
    have h1 := ih ((carry + factor * d) / modulus)
    calc (carry + factor * d) % modulus +
          modulus * Nat.ofDigits modulus
            (mulAddStep factor modulus ((carry + factor * d) / modulus) ds).1 +
          modulus ^ (ds.length + 1) *
            (mulAddStep factor modulus ((carry + factor * d) / modulus) ds).2
        = (carry + factor * d) % modulus +
            modulus * (Nat.ofDigits modulus
              (mulAddStep factor modulus ((carry + factor * d) / modulus) ds).1 +
              modulus ^ ds.length *
                (mulAddStep factor modulus ((carry + factor * d) / modulus) ds).2) := by
          ring
      _ = (carry + factor * d) % modulus +
            modulus * ((carry + factor * d) / modulus +
              factor * Nat.ofDigits modulus ds) := by rw [h1]
      _ = ((carry + factor * d) % modulus +
            modulus * ((carry + factor * d) / modulus)) +
            modulus * (factor * Nat.ofDigits modulus ds) := by ring
      _ = (carry + factor * d) + modulus * (factor * Nat.ofDigits modulus ds) := by
          rw [Nat.mod_add_div]
      _ = carry + factor * (d + modulus * Nat.ofDigits modulus ds) := by ring

theorem mulAddStep_carry_zero (factor modulus : Nat) (_hm : 0 < modulus)
    (carry : Nat) (ds : List Nat)
    (hfit : carry + factor * Nat.ofDigits modulus ds < modulus ^ ds.length) :
    (mulAddStep factor modulus carry ds).2 = 0 ∧
      Nat.ofDigits modulus (mulAddStep factor modulus carry ds).1 =
        carry + factor * Nat.ofDigits modulus ds := by
  have hval := mulAddStep_val factor modulus carry ds
  have hc : (mulAddStep factor modulus carry ds).2 = 0 := by
    by_contra hne
    have h1 : 1 ≤ (mulAddStep factor modulus carry ds).2 := Nat.one_le_iff_ne_zero.mpr hne
    have : modulus ^ ds.length ≤
        Nat.ofDigits modulus (mulAddStep factor modulus carry ds).1 +
          modulus ^ ds.length * (mulAddStep factor modulus carry ds).2 := by
      calc modulus ^ ds.length = modulus ^ ds.length * 1 := by ring
        _ ≤ modulus ^ ds.length * (mulAddStep factor modulus carry ds).2 :=
            Nat.mul_le_mul_left _ h1
        _ ≤ _ := Nat.le_add_left _ _
    omega
  refine ⟨hc, ?_⟩
  rw [hc, Nat.mul_zero, Nat.add_zero] at hval
  exact hval

/-! ### Buffer-sizing bounds

The two concrete facts below justify the `138/100` and `733/1000` rational
approximations of `log 256 / log 58` and `log 58 / log 256` used to size the
working buffers. -/

theorem pow_100_le : (256 : Nat) ^ 100 ≤ 58 ^ 138 := by norm_num

theorem pow_1000_le : (58 : Nat) ^ 1000 ≤ 256 ^ 733 := by norm_num

theorem le_of_pow_le_pow (a b k : Nat) (hk : k ≠ 0) (h : a ^ k ≤ b ^ k) : a ≤ b := by
  by_contra hab
  exact absurd h (Nat.not_le.mpr (Nat.pow_lt_pow_left (Nat.not_le.mp hab) hk))

/-- Sizing bound for the `EncodeBase58` buffer: a value below `256 ^ n` fits
into `n * 138 / 100 + 1` base-58 digits. -/
theorem encode_size_bound (n : Nat) : (256 : Nat) ^ n ≤ 58 ^ (n * 138 / 100 + 1) := by
  refine le_of_pow_le_pow _ _ 100 (by norm_num) ?_
  have h1 : ((256 : Nat) ^ n) ^ 100 = (256 ^ 100) ^ n := by
    rw [← Nat.pow_mul, ← Nat.pow_mul, Nat.mul_comm]
  have h2 : (256 ^ 100 : Nat) ^ n ≤ (58 ^ 138) ^ n := Nat.pow_le_pow_left pow_100_le n
  have h3 : ((58 : Nat) ^ 138) ^ n = 58 ^ (n * 138) := by
    rw [← Nat.pow_mul, Nat.mul_comm]
  have h4 : n * 138 ≤ (n * 138 / 100 + 1) * 100 := by omega
  have h5 : (58 : Nat) ^ (n * 138) ≤ 58 ^ ((n * 138 / 100 + 1) * 100) :=
    Nat.pow_le_pow_right (by norm_num) h4
  calc ((256 : Nat) ^ n) ^ 100 = (256 ^ 100) ^ n := h1
    _ ≤ (58 ^ 138) ^ n := h2
    _ = 58 ^ (n * 138) := h3
    _ ≤ 58 ^ ((n * 138 / 100 + 1) * 100) := h5
    _ = (58 ^ (n * 138 / 100 + 1)) ^ 100 := by rw [← Nat.pow_mul]

/-- Sizing bound for the `DecodeBase58` buffer: a value below `58 ^ m` fits
into `m * 733 / 1000 + 1` base-256 bytes. -/
theorem decode_size_bound (m : Nat) : (58 : Nat) ^ m ≤ 256 ^ (m * 733 / 1000 + 1) := by
  refine le_of_pow_le_pow _ _ 1000 (by norm_num) ?_
  have h1 : ((58 : Nat) ^ m) ^ 1000 = (58 ^ 1000) ^ m := by
    rw [← Nat.pow_mul, ← Nat.pow_mul, Nat.mul_comm]
  have h2 : (58 ^ 1000 : Nat) ^ m ≤ (256 ^ 733) ^ m := Nat.pow_le_pow_left pow_1000_le m
  have h3 : ((256 : Nat) ^ 733) ^ m = 256 ^ (m * 733) := by
    rw [← Nat.pow_mul, Nat.mul_comm]
  have h4 : m * 733 ≤ (m * 733 / 1000 + 1) * 1000 := by omega
  have h5 : (256 : Nat) ^ (m * 733) ≤ 256 ^ ((m * 733 / 1000 + 1) * 1000) :=
    Nat.pow_le_pow_right (by norm_num) h4
  calc ((58 : Nat) ^ m) ^ 1000 = (58 ^ 1000) ^ m := h1
    _ ≤ (256 ^ 733) ^ m := h2
    _ = 256 ^ (m * 733) := h3
    _ ≤ 256 ^ ((m * 733 / 1000 + 1) * 1000) := h5
    _ = (256 ^ (m * 733 / 1000 + 1)) ^ 1000 := by rw [← Nat.pow_mul]

/-! ### List helpers -/

theorem dropWhile_append_all {α : Type} (p : α → Bool) :
    ∀ (xs ys : List α), (∀ x ∈ xs, p x = true) →
      List.dropWhile p (xs ++ ys) = List.dropWhile p ys := by
  intro xs ys h
  induction xs with
  | nil => rfl
  | cons a xs ih =>
    have ha : p a = true := h a (List.mem_cons_self a xs)
    simp only [List.cons_append, List.dropWhile_cons, ha, if_true]
    exact ih fun x hx => h x (List.mem_cons_of_mem a hx)

theorem takeWhile_append_all {α : Type} (p : α → Bool) :
    ∀ (xs ys : List α), (∀ x ∈ xs, p x = true) →
      List.takeWhile p (xs ++ ys) = xs ++ List.takeWhile p ys := by
  intro xs ys h
  induction xs with
  | nil => rfl
  | cons a xs ih =>
    have ha : p a = true := h a (List.mem_cons_self a xs)
    simp only [List.cons_append, List.takeWhile_cons, ha, if_true]
    rw [ih fun x hx => h x (List.mem_cons_of_mem a hx)]

theorem dropWhile_eq_self_all {α : Type} (p : α → Bool) (l : List α)
    (h : ∀ x ∈ l, p x = false) : List.dropWhile p l = l := by
  cases l with
  | nil => rfl
  | cons a t =>
    simp only [List.dropWhile_cons, h a (List.mem_cons_self a t)]
    simp

theorem takeWhile_eq_nil_all {α : Type} (p : α → Bool) (l : List α)
    (h : ∀ x ∈ l, p x = false) : List.takeWhile p l = [] := by
  cases l with
  | nil => rfl
  | cons a t =>
    simp only [List.takeWhile_cons, h a (List.mem_cons_self a t)]
    simp

theorem dropWhile_head_false {α : Type} (p : α → Bool) :
    ∀ (l : List α) (c : α) (t : List α), List.dropWhile p l = c :: t → p c = false := by
  intro l
  induction l with
  | nil => intro c t h; simp at h
  | cons a l ih =>
    intro c t h
    by_cases ha : p a = true
    · rw [List.dropWhile_cons, if_pos ha] at h
      exact ih c t h
    · rw [List.dropWhile_cons, if_neg ha] at h
      cases h
      exact Bool.eq_false_iff.mpr ha

theorem takeWhile_beq_replicate (a : Nat) (l : List Nat) :
    List.takeWhile (· == a) l =
      List.replicate (List.takeWhile (· == a) l).length a := by
  apply List.eq_replicate_of_mem
  intro x hx
  have := List.mem_takeWhile_imp hx
  simpa using this

theorem findIdx?_isSome_of_mem {α : Type} [BEq α] [LawfulBEq α]
    (l : List α) (c : α) (h : c ∈ l) : (l.findIdx? (· == c)).isSome = true := by
  cases hf : l.findIdx? (· == c) with
  | some i => rfl
  | none =>
    have := List.findIdx?_eq_none_iff.mp hf c h
    simp at this

theorem mem_of_findIdx?_eq_some {α : Type} [BEq α] [LawfulBEq α]
    (l : List α) (c : α) (i : Nat) (h : l.findIdx? (· == c) = some i) : c ∈ l := by
  by_contra hc
  have : l.findIdx? (· == c) = none :=
    List.findIdx?_eq_none_iff.mpr fun x hx => by
      have : x ≠ c := fun he => hc (he ▸ hx)
      simpa using this
  rw [this] at h
  exact Option.noConfusion h

theorem findIdx?_lt_length {α : Type} (p : α → Bool) :
    ∀ (l : List α) (i j : Nat), l.findIdx? p i = some j → j < i + l.length := by
  intro l
  induction l with
  | nil => intro i j h; exact Option.noConfusion h
  | cons a l ih =>
    intro i j h
    rw [List.findIdx?_cons] at h
    by_cases ha : p a = true
    · rw [if_pos ha] at h
      cases h
      simp
    · rw [if_neg ha] at h
      have := ih (i + 1) j h
      simp only [List.length_cons]
      omega

/-! ### Relating a fixed-size digit buffer to the canonical representation -/

theorem ofDigits_replicate_zero (r n : Nat) :
    Nat.ofDigits r (List.replicate n 0) = 0 := by
  induction n with
  | zero => rfl
  | succ n ih => simp [List.replicate_succ, Nat.ofDigits_cons, ih]

/-- A little-endian digit buffer with digits below the base is the canonical
digit string of its value, padded with zeros at the most-significant end. -/
theorem buffer_eq_digits_pad (r : Nat) (hr : 1 < r) :
    ∀ (ds : List Nat), (∀ d ∈ ds, d < r) →
      ds = Nat.digits r (Nat.ofDigits r ds) ++
        List.replicate (ds.length - (Nat.digits r (Nat.ofDigits r ds)).length) 0 := by
  intro ds
  induction ds with
  | nil => intro _; simp
  | cons d tl ih =>
    intro h
    have hd : d < r := h d (List.mem_cons_self d tl)
    have htl := ih fun x hx => h x (List.mem_cons_of_mem d hx)
    by_cases hzero : d = 0 ∧ Nat.ofDigits r tl = 0
    · obtain ⟨rfl, hv0⟩ := hzero
      have hcons : Nat.ofDigits r (0 :: tl) = 0 := by
        simp [Nat.ofDigits_cons, hv0]
      rw [hcons]
      simp only [Nat.digits_zero, List.nil_append, List.length_nil, Nat.sub_zero]
      have : tl = List.replicate tl.length 0 := by
        rw [hv0] at htl
        simpa using htl
      calc (0 :: tl) = 0 :: List.replicate tl.length 0 := by rw [← this]
        _ = List.replicate (0 :: tl).length 0 := by
            simp [List.replicate_succ]
    · have hpos : 0 < Nat.ofDigits r (d :: tl) := by
        rcases Nat.eq_zero_or_pos (Nat.ofDigits r (d :: tl)) with hz | hp
        · exfalso
          rw [Nat.ofDigits_cons] at hz
          have hd0 : d = 0 := by omega
          have htl0 : r * Nat.ofDigits r tl = 0 := by omega
          have : Nat.ofDigits r tl = 0 := by
            rcases Nat.mul_eq_zero.mp htl0 with h1 | h2
            · omega
            · exact h2
          exact hzero ⟨hd0, this⟩
        · exact hp
      rw [Nat.digits_def' hr hpos]
      have hmod : Nat.ofDigits r (d :: tl) % r = d := by
        rw [Nat.ofDigits_cons]
        rw [Nat.add_mul_mod_self_left]
        exact Nat.mod_eq_of_lt hd
      have hdiv : Nat.ofDigits r (d :: tl) / r = Nat.ofDigits r tl := by
        rw [Nat.ofDigits_cons]
        rw [Nat.add_mul_div_left _ _ (by omega : 0 < r)]
        rw [Nat.div_eq_of_lt hd]
        omega
      rw [hmod, hdiv]
      calc d :: tl
          = d :: (Nat.digits r (Nat.ofDigits r tl) ++
              List.replicate (tl.length - (Nat.digits r (Nat.ofDigits r tl)).length) 0) := by
            rw [← htl]
        _ = (d :: Nat.digits r (Nat.ofDigits r tl)) ++
              List.replicate ((d :: tl).length -
                (d :: Nat.digits r (Nat.ofDigits r tl)).length) 0 := by
            simp only [List.cons_append, List.length_cons]
            rw [Nat.succ_sub_succ]

/-- Stripping the most-significant zeros of a little-endian digit buffer
(leading zeros of the big-endian buffer in the source) leaves exactly the
big-endian canonical digit string of its value. -/
theorem buffer_strip (r : Nat) (hr : 1 < r) (ds : List Nat) (h : ∀ d ∈ ds, d < r) :
    ds.reverse.dropWhile (· == 0) = (Nat.digits r (Nat.ofDigits r ds)).reverse := by
  set V := Nat.ofDigits r ds with hV
  have hpad := buffer_eq_digits_pad r hr ds h
  calc ds.reverse.dropWhile (· == 0)
      = ((Nat.digits r V ++
          List.replicate (ds.length - (Nat.digits r V).length) 0).reverse).dropWhile
            (· == 0) := by rw [← hpad]
    _ = (List.replicate (ds.length - (Nat.digits r V).length) 0 ++
          (Nat.digits r V).reverse).dropWhile (· == 0) := by
        rw [List.reverse_append, List.reverse_replicate]
    _ = ((Nat.digits r V).reverse).dropWhile (· == 0) := by
        apply dropWhile_append_all
        intro x hx
        rw [List.eq_of_mem_replicate hx]
        rfl
    _ = (Nat.digits r V).reverse := by
        rcases Nat.eq_zero_or_pos V with hz | hp
        · rw [hz]; simp
        · have hne : Nat.digits r V ≠ [] :=
            Nat.digits_ne_nil_iff_ne_zero.mpr (by omega)
          cases hrev : (Nat.digits r V).reverse with
          | nil =>
            exact absurd (by simpa using congrArg List.reverse hrev) hne
          | cons c t =>
            have hc : c = (Nat.digits r V).getLast hne := by
              have h1 : (Nat.digits r V).reverse.head? = some c := by
                rw [hrev]; rfl
              rw [List.head?_reverse, List.getLast?_eq_getLast_of_ne_nil hne] at h1
              exact (Option.some.injEq _ _ ▸ h1).symm
            have hc0 : c ≠ 0 := by
              rw [hc]
              exact Nat.getLast_digit_ne_zero r (by omega)
            rw [List.dropWhile_cons, if_neg (by simp [hc0])]

/-! ### Specification of the two conversion loops -/

/-- Behaviour of the `EncodeBase58` byte loop: provided the final value fits
in the buffer, the loop keeps the buffer length, keeps every digit below 58,
accumulates the big-endian base-256 value of the bytes into the buffer, and
every leftover carry is zero. -/
theorem encodeLoop_spec :
    ∀ (bs buf : List Nat), (∀ d ∈ buf, d < 58) →
      Nat.ofDigits 58 buf * 256 ^ bs.length + Nat.ofDigits 256 bs.reverse
          < 58 ^ buf.length →
      (encodeLoop buf bs).length = buf.length ∧
      (∀ d ∈ encodeLoop buf bs, d < 58) ∧
      Nat.ofDigits 58 (encodeLoop buf bs) =
        Nat.ofDigits 58 buf * 256 ^ bs.length + Nat.ofDigits 256 bs.reverse ∧
      encodeCarries buf bs = List.replicate bs.length 0 := by
  intro bs
  induction bs with
  | nil =>
    intro buf hd _
    refine ⟨rfl, hd, ?_, rfl⟩
    simp [encodeLoop, Nat.ofDigits_nil]
  | cons b tl ih =>
    intro buf hd hfit
    have hval : Nat.ofDigits 256 ((b :: tl).reverse) =
        Nat.ofDigits 256 tl.reverse + 256 ^ tl.length * b := by
      rw [List.reverse_cons, Nat.ofDigits_append]
      simp [Nat.ofDigits_cons, Nat.ofDigits_nil]
    have hpow : (1 : Nat) ≤ 256 ^ tl.length := Nat.one_le_pow _ _ (by norm_num)
    have hstepfit : b + 256 * Nat.ofDigits 58 buf < 58 ^ buf.length := by
      have h1 : (b + 256 * Nat.ofDigits 58 buf) * 1 ≤
          (b + 256 * Nat.ofDigits 58 buf) * 256 ^ tl.length :=
        Nat.mul_le_mul_left _ hpow
      have h2 : (b + 256 * Nat.ofDigits 58 buf) * 256 ^ tl.length =
          Nat.ofDigits 58 buf * 256 ^ (b :: tl).length -
            Nat.ofDigits 58 buf * 256 ^ (b :: tl).length +
            (b * 256 ^ tl.length + Nat.ofDigits 58 buf * 256 ^ (tl.length + 1)) := by
        simp only [List.length_cons]
        ring_nf
        omega
      calc b + 256 * Nat.ofDigits 58 buf
          ≤ (b + 256 * Nat.ofDigits 58 buf) * 256 ^ tl.length := by
            simpa using h1
        _ ≤ Nat.ofDigits 58 buf * 256 ^ (b :: tl).length +
              Nat.ofDigits 256 ((b :: tl).reverse) := by
            rw [hval]
            simp only [List.length_cons]
            ring_nf
            omega
        _ < 58 ^ buf.length := hfit
    obtain ⟨hc0, hv0⟩ :=
      mulAddStep_carry_zero 256 58 (by norm_num) b buf hstepfit
    have hlen := mulAddStep_length 256 58 b buf
    have hlt := mulAddStep_lt 256 58 (by norm_num) b buf
    have hfit' : Nat.ofDigits 58 (mulAddStep 256 58 b buf).1 * 256 ^ tl.length +
        Nat.ofDigits 256 tl.reverse < 58 ^ (mulAddStep 256 58 b buf).1.length := by
      rw [hv0, hlen]
      calc (b + 256 * Nat.ofDigits 58 buf) * 256 ^ tl.length +
            Nat.ofDigits 256 tl.reverse
          = Nat.ofDigits 58 buf * 256 ^ (b :: tl).length +
              Nat.ofDigits 256 ((b :: tl).reverse) := by
            rw [hval]
            simp only [List.length_cons]
            ring
        _ < 58 ^ buf.length := hfit
    obtain ⟨ihlen, ihlt, ihval, ihcar⟩ := ih (mulAddStep 256 58 b buf).1 hlt hfit'
    refine ⟨?_, ?_, ?_, ?_⟩
    · rw [show encodeLoop buf (b :: tl) = encodeLoop (mulAddStep 256 58 b buf).1 tl
        from rfl, ihlen, hlen]
    · exact fun d hdmem => ihlt d hdmem
    · rw [show encodeLoop buf (b :: tl) = encodeLoop (mulAddStep 256 58 b buf).1 tl
        from rfl, ihval, hv0, hval]
      simp only [List.length_cons]
      ring
    · rw [show encodeCarries buf (b :: tl) =
          (mulAddStep 256 58 b buf).2 :: encodeCarries (mulAddStep 256 58 b buf).1 tl
        from rfl, hc0, ihcar]
      rfl

/-! ### Concrete facts about the alphabet -/

theorem pszBase58_length : pszBase58.length = 58 := by decide

theorem b58Char_not_space : ∀ i : Fin 58, isspaceC (b58Char i.val) = false := by decide

theorem b58Char_findIdx :
    ∀ i : Fin 58, pszBase58.findIdx? (· == b58Char i.val) = some i.val := by decide

theorem b58Char_ne_one : ∀ i : Fin 58, i.val ≠ 0 → b58Char i.val ≠ '1' := by decide

theorem one_not_space : isspaceC '1' = false := by decide

theorem mem_pszBase58_not_space : ∀ c ∈ pszBase58, isspaceC c = false := by decide

/-! ### Specification of the decode character loop -/

/-- Behaviour of the `DecodeBase58` character loop on a pure digit string:
it consumes everything, keeps the buffer length and byte bounds, and
accumulates the big-endian base-58 value into the buffer. -/
theorem decodeLoop_alphabet :
    ∀ (D : List Nat) (buf : List Nat), (∀ d ∈ D, d < 58) → (∀ x ∈ buf, x < 256) →
      Nat.ofDigits 256 buf * 58 ^ D.length + Nat.ofDigits 58 D.reverse
          < 256 ^ buf.length →
      ∃ out, decodeLoop buf (D.map b58Char) = some (out, []) ∧
        out.length = buf.length ∧ (∀ x ∈ out, x < 256) ∧
        Nat.ofDigits 256 out =
          Nat.ofDigits 256 buf * 58 ^ D.length + Nat.ofDigits 58 D.reverse := by
  intro D
  induction D with
  | nil =>
    intro buf _ hbuf _
    exact ⟨buf, rfl, rfl, hbuf, by simp [Nat.ofDigits_nil]⟩
  | cons d tl ih =>
    intro buf hD hbuf hfit
    have hd : d < 58 := hD d (List.mem_cons_self d tl)
    have hval : Nat.ofDigits 58 ((d :: tl).reverse) =
        Nat.ofDigits 58 tl.reverse + 58 ^ tl.length * d := by
      rw [List.reverse_cons, Nat.ofDigits_append]
      simp [Nat.ofDigits_cons, Nat.ofDigits_nil]
    have hpow : (1 : Nat) ≤ 58 ^ tl.length := Nat.one_le_pow _ _ (by norm_num)
    have hstepfit : d + 58 * Nat.ofDigits 256 buf < 256 ^ buf.length := by
      have h1 : (d + 58 * Nat.ofDigits 256 buf) * 1 ≤
          (d + 58 * Nat.ofDigits 256 buf) * 58 ^ tl.length :=
        Nat.mul_le_mul_left _ hpow
      calc d + 58 * Nat.ofDigits 256 buf
          ≤ (d + 58 * Nat.ofDigits 256 buf) * 58 ^ tl.length := by simpa using h1
        _ ≤ Nat.ofDigits 256 buf * 58 ^ (d :: tl).length +
              Nat.ofDigits 58 ((d :: tl).reverse) := by
            rw [hval]
            simp only [List.length_cons]
            ring_nf
            omega
        _ < 256 ^ buf.length := hfit
    obtain ⟨hc0, hv0⟩ :=
      mulAddStep_carry_zero 58 256 (by norm_num) d buf hstepfit
    have hlen := mulAddStep_length 58 256 d buf
    have hlt := mulAddStep_lt 58 256 (by norm_num) d buf
    have hfit' : Nat.ofDigits 256 (mulAddStep 58 256 d buf).1 * 58 ^ tl.length +
        Nat.ofDigits 58 tl.reverse < 256 ^ (mulAddStep 58 256 d buf).1.length := by
      rw [hv0, hlen]
      calc (d + 58 * Nat.ofDigits 256 buf) * 58 ^ tl.length +
            Nat.ofDigits 58 tl.reverse
          = Nat.ofDigits 256 buf * 58 ^ (d :: tl).length +
              Nat.ofDigits 58 ((d :: tl).reverse) := by
            rw [hval]
            simp only [List.length_cons]
            ring
        _ < 256 ^ buf.length := hfit
    obtain ⟨out, hout, ihlen, ihlt, ihval⟩ :=
      ih (mulAddStep 58 256 d buf).1 (fun x hx => hD x (List.mem_cons_of_mem d hx))
        hlt hfit'
    refine ⟨out, ?_, by rw [ihlen, hlen], ihlt, ?_⟩
    · rw [show (d :: tl).map b58Char = b58Char d :: tl.map b58Char from rfl]
      rw [decodeLoop]
      rw [b58Char_not_space ⟨d, hd⟩]
      simp only [Bool.false_eq_true, if_false]
      rw [b58Char_findIdx ⟨d, hd⟩]
      exact hout
    · rw [ihval, hv0, hval]
      simp only [List.length_cons]
      ring

/-- Every leftover carry in the decode loop is zero, provided the buffer is
large enough for the worst case over the remaining characters. -/
theorem decodeCarries_zero :
    ∀ (cs : List Char) (buf : List Nat),
      (Nat.ofDigits 256 buf + 1) * 58 ^ cs.length ≤ 256 ^ buf.length →
      ∀ x ∈ decodeCarries buf cs, x = 0 := by
  intro cs
  induction cs with
  | nil => intro buf _ x hx; simp [decodeCarries] at hx
  | cons c cs ih =>
    intro buf hfit x hx
    rw [decodeCarries] at hx
    by_cases hsp : isspaceC c = true
    · rw [if_pos hsp] at hx; simp at hx
    · rw [if_neg hsp] at hx
      cases hf : pszBase58.findIdx? (· == c) with
      | none => rw [hf] at hx; simp at hx
      | some i =>
        rw [hf] at hx
        have hi : i < 58 := by
          have := findIdx?_lt_length (· == c) pszBase58 0 i hf
          rw [pszBase58_length] at this
          omega
        have h58 : (58 : Nat) ≤ 58 ^ (c :: cs).length := by
          calc (58 : Nat) = 58 ^ 1 := (Nat.pow_one 58).symm
            _ ≤ 58 ^ (c :: cs).length :=
              Nat.pow_le_pow_right (by norm_num) (by simp)
        have hstepfit : i + 58 * Nat.ofDigits 256 buf < 256 ^ buf.length := by
          have : i + 58 * Nat.ofDigits 256 buf < (Nat.ofDigits 256 buf + 1) * 58 := by
            omega
          calc i + 58 * Nat.ofDigits 256 buf
              < (Nat.ofDigits 256 buf + 1) * 58 := this
            _ ≤ (Nat.ofDigits 256 buf + 1) * 58 ^ (c :: cs).length :=
                Nat.mul_le_mul_left _ h58
            _ ≤ 256 ^ buf.length := hfit
        obtain ⟨hc0, hv0⟩ :=
          mulAddStep_carry_zero 58 256 (by norm_num) i buf hstepfit
        simp only [List.mem_cons] at hx
        rcases hx with rfl | hx
        · exact hc0
        · refine ih (mulAddStep 58 256 i buf).1 ?_ x hx
          rw [hv0, mulAddStep_length]
          have hmul : i + 58 * Nat.ofDigits 256 buf + 1 ≤
              (Nat.ofDigits 256 buf + 1) * 58 := by omega
          calc (i + 58 * Nat.ofDigits 256 buf + 1) * 58 ^ cs.length
              ≤ (Nat.ofDigits 256 buf + 1) * 58 * 58 ^ cs.length :=
                Nat.mul_le_mul_right _ hmul
            _ = (Nat.ofDigits 256 buf + 1) * 58 ^ (c :: cs).length := by
                rw [List.length_cons]
                ring
            _ ≤ 256 ^ buf.length := hfit

/-- Control flow of the decode character loop: if every character up to the
first whitespace is in the alphabet, the loop succeeds and stops exactly at
the first whitespace. -/
theorem decodeLoop_stop :
    ∀ (cs : List Char) (buf : List Nat),
      (∀ c ∈ cs.takeWhile (fun c => !isspaceC c), c ∈ pszBase58) →
      ∃ out, decodeLoop buf cs = some (out, cs.dropWhile (fun c => !isspaceC c)) := by
  intro cs
  induction cs with
  | nil => intro buf _; exact ⟨buf, rfl⟩
  | cons c cs ih =>
    intro buf h
    by_cases hsp : isspaceC c = true
    · refine ⟨buf, ?_⟩
      rw [decodeLoop, if_pos hsp, List.dropWhile_cons, hsp]
      simp
    · have hc : c ∈ pszBase58 := by
        apply h
        rw [List.takeWhile_cons]
        simp [hsp]
      have hfind := findIdx?_isSome_of_mem pszBase58 c hc
      cases hf : pszBase58.findIdx? (· == c) with
      | none => rw [hf] at hfind; simp at hfind
      | some i =>
        obtain ⟨out, hout⟩ := ih (mulAddStep 58 256 i buf).1 (by
          intro x hxmem
          apply h
          rw [List.takeWhile_cons]
          simp only [hsp, Bool.not_false, if_true]
          exact List.mem_cons_of_mem c hxmem)
        refine ⟨out, ?_⟩
        have hred : decodeLoop buf (c :: cs) =
            decodeLoop (mulAddStep 58 256 i buf).1 cs := by
          rw [decodeLoop, if_neg hsp, hf]
        have hdw : List.dropWhile (fun c => !isspaceC c) (c :: cs) =
            List.dropWhile (fun c => !isspaceC c) cs := by
          rw [List.dropWhile_cons]
          simp [hsp]
        rw [hred, hdw]
        exact hout

/-- Control flow of the decode character loop, failure direction: the loop
fails exactly when a character strictly before the first whitespace is
outside the alphabet. -/
theorem decodeLoop_none_iff :
    ∀ (cs : List Char) (buf : List Nat),
      decodeLoop buf cs = none ↔
        ∃ c, c ∈ cs.takeWhile (fun c => !isspaceC c) ∧ c ∉ pszBase58 := by
  intro cs
  induction cs with
  | nil =>
    intro buf
    constructor
    · intro h; exact Option.noConfusion h
    · rintro ⟨c, hc, _⟩; simp at hc
  | cons c cs ih =>
    intro buf
    by_cases hsp : isspaceC c = true
    · rw [decodeLoop, if_pos hsp]
      constructor
      · intro h; exact Option.noConfusion h
      · rintro ⟨x, hx, _⟩
        rw [List.takeWhile_cons, hsp] at hx
        simp at hx
    · rw [decodeLoop, if_neg hsp]
      cases hf : pszBase58.findIdx? (· == c) with
      | none =>
        constructor
        · intro _
          refine ⟨c, ?_, ?_⟩
          · rw [List.takeWhile_cons]
            simp [hsp]
          · intro hmem
            have := findIdx?_isSome_of_mem pszBase58 c hmem
            rw [hf] at this
            simp at this
        · intro _; rfl
      | some i =>
        show decodeLoop (mulAddStep 58 256 i buf).1 cs = none ↔ _
        rw [ih]
        constructor
        · rintro ⟨x, hx, hxn⟩
          refine ⟨x, ?_, hxn⟩
          rw [List.takeWhile_cons]
          simp only [hsp, Bool.not_false, if_true]
          exact List.mem_cons_of_mem c hx
        · rintro ⟨x, hx, hxn⟩
          rw [List.takeWhile_cons] at hx
          simp only [hsp, Bool.not_false, if_true] at hx
          rcases List.mem_cons.mp hx with rfl | hx'
          · exact absurd (mem_of_findIdx?_eq_some pszBase58 x i hf) hxn
          · exact ⟨x, hx', hxn⟩

/-! ### Characterization of `EncodeBase58` -/

/-- The value encoded by `EncodeBase58` after stripping leading zero bytes:
the big-endian base-256 value of the remaining bytes. -/
def restVal (bytes : List Nat) : Nat :=
  Nat.ofDigits 256 (bytes.dropWhile (· == 0)).reverse

/-- `EncodeBase58` produces one `'1'` per leading zero byte followed by the
canonical big-endian base-58 digit string of the value of the remaining
bytes, spelled in the alphabet. -/
theorem encode_characterization (bytes : List Nat) (h : ∀ b ∈ bytes, b < 256) :
    EncodeBase58 bytes =
      List.replicate ((bytes.takeWhile (· == 0)).length) '1' ++
        ((Nat.digits 58 (restVal bytes)).reverse).map b58Char := by
  have hrest : ∀ x ∈ bytes.dropWhile (· == 0), x < 256 := fun x hx =>
    h x ((List.dropWhile_sublist (· == 0)).subset hx)
  have hVlt : restVal bytes < 256 ^ (bytes.dropWhile (· == 0)).length := by
    have := Nat.ofDigits_lt_base_pow_length (b := 256) (by norm_num)
      (l := (bytes.dropWhile (· == 0)).reverse)
      (fun x hx => hrest x (List.mem_reverse.mp hx))
    simpa [restVal] using this
  set L := (bytes.dropWhile (· == 0)).length * 138 / 100 + 1 with hL
  have hrep : ∀ d ∈ List.replicate L (0 : Nat), d < 58 := fun d hd => by
    rw [List.eq_of_mem_replicate hd]; norm_num
  have hfit : Nat.ofDigits 58 (List.replicate L 0) *
        256 ^ (bytes.dropWhile (· == 0)).length +
        Nat.ofDigits 256 (bytes.dropWhile (· == 0)).reverse
      < 58 ^ (List.replicate L (0 : Nat)).length := by
    rw [ofDigits_replicate_zero, List.length_replicate]
    calc 0 * 256 ^ (bytes.dropWhile (· == 0)).length +
          Nat.ofDigits 256 (bytes.dropWhile (· == 0)).reverse
        = restVal bytes := by rw [restVal]; ring
      _ < 256 ^ (bytes.dropWhile (· == 0)).length := hVlt
      _ ≤ 58 ^ L := encode_size_bound _
  obtain ⟨hlen, hlt, hval, _⟩ :=
    encodeLoop_spec (bytes.dropWhile (· == 0)) (List.replicate L 0) hrep hfit
  have hstrip :=
    buffer_strip 58 (by norm_num)
      (encodeLoop (List.replicate L 0) (bytes.dropWhile (· == 0))) hlt
  rw [hval, ofDigits_replicate_zero] at hstrip
  have hexp : Nat.ofDigits 256 (bytes.dropWhile (· == 0)).reverse = restVal bytes := rfl
  simp only [EncodeBase58]
  rw [hstrip]
  rw [show 0 * 256 ^ (bytes.dropWhile (· == 0)).length +
        Nat.ofDigits 256 (bytes.dropWhile (· == 0)).reverse = restVal bytes by
      rw [hexp]; ring]

/-- The most significant digit of a (reversed) canonical digit string is
nonzero. -/
theorem digits_reverse_head (r V c : Nat) (t : List Nat)
    (h : (Nat.digits r V).reverse = c :: t) : c ≠ 0 := by
  have hne : Nat.digits r V ≠ [] := by
    intro hnil
    rw [hnil] at h
    exact List.noConfusion h
  have h1 : (Nat.digits r V).reverse.head? = some c := by rw [h]; rfl
  rw [List.head?_reverse, List.getLast?_eq_getLast_of_ne_nil hne] at h1
  have hc : c = (Nat.digits r V).getLast hne := by
    exact (Option.some.injEq _ _ ▸ h1).symm
  have hV0 : V ≠ 0 := by
    intro h0
    subst h0
    simp at hne
  rw [hc]
  exact Nat.getLast_digit_ne_zero r hV0

/-! ### The Base58 round trip -/

/-- Decoding the output of `EncodeBase58` recovers the input bytes. -/
theorem decode_of_encode (bytes : List Nat) (h : ∀ b ∈ bytes, b < 256) :
    DecodeBase58 (EncodeBase58 bytes) = some bytes := by
  rw [encode_characterization bytes h]
  set z := (bytes.takeWhile (· == 0)).length with hz
  set V := restVal bytes with hV
  set D := (Nat.digits 58 V).reverse with hD
  have hDlt : ∀ d ∈ D, d < 58 := fun d hd =>
    Nat.digits_lt_base (by norm_num) (List.mem_reverse.mp hd)
  have hs_all_ns : ∀ c ∈ List.replicate z '1' ++ D.map b58Char,
      isspaceC c = false := by
    intro c hc
    rcases List.mem_append.mp hc with h1 | h2
    · rw [List.eq_of_mem_replicate h1]
      exact one_not_space
    · obtain ⟨d, hdm, rfl⟩ := List.mem_map.mp h2
      exact b58Char_not_space ⟨d, hDlt d hdm⟩
  have h1 : (List.replicate z '1' ++ D.map b58Char).dropWhile isspaceC
      = List.replicate z '1' ++ D.map b58Char :=
    dropWhile_eq_self_all _ _ hs_all_ns
  have hheadD : ∀ d0 t, D = d0 :: t → b58Char d0 ≠ '1' := by
    intro d0 t hDc
    have hd0 : d0 ≠ 0 := digits_reverse_head 58 V d0 t (by rw [← hD, hDc])
    have hd0lt : d0 < 58 := hDlt d0 (by rw [hDc]; exact List.mem_cons_self _ _)
    exact b58Char_ne_one ⟨d0, hd0lt⟩ hd0
  have h2 : List.takeWhile (· == '1') (D.map b58Char) = [] := by
    cases hDc : D with
    | nil => rfl
    | cons d0 t =>
      rw [List.map_cons, List.takeWhile_cons, if_neg (by simp [hheadD d0 t hDc])]
  have h3 : List.takeWhile (· == '1') (List.replicate z '1' ++ D.map b58Char)
      = List.replicate z '1' := by
    rw [takeWhile_append_all _ _ _ (fun x hx => by
      rw [List.eq_of_mem_replicate hx]; rfl), h2, List.append_nil]
  have h4 : List.dropWhile (· == '1') (List.replicate z '1' ++ D.map b58Char)
      = D.map b58Char := by
    rw [dropWhile_append_all _ _ _ (fun x hx => by
      rw [List.eq_of_mem_replicate hx]; rfl)]
    cases hDc : D with
    | nil => rfl
    | cons d0 t =>
      rw [List.map_cons, List.dropWhile_cons, if_neg (by simp [hheadD d0 t hDc])]
  -- the character loop
  have hDrev : D.reverse = Nat.digits 58 V := by rw [hD, List.reverse_reverse]
  have hVD : Nat.ofDigits 58 D.reverse = V := by rw [hDrev, Nat.ofDigits_digits]
  set L2 := (D.map b58Char).length * 733 / 1000 + 1 with hL2
  have hrep : ∀ x ∈ List.replicate L2 (0 : Nat), x < 256 := fun x hx => by
    rw [List.eq_of_mem_replicate hx]; norm_num
  have hfit2 : Nat.ofDigits 256 (List.replicate L2 0) * 58 ^ D.length +
      Nat.ofDigits 58 D.reverse < 256 ^ (List.replicate L2 (0 : Nat)).length := by
    rw [ofDigits_replicate_zero, List.length_replicate, hVD]
    have hVlt : V < 58 ^ D.length := by
      rw [hD, List.length_reverse]
      exact Nat.lt_base_pow_length_digits (by norm_num)
    calc 0 * 58 ^ D.length + V = V := by ring
      _ < 58 ^ D.length := hVlt
      _ ≤ 256 ^ (D.length * 733 / 1000 + 1) := decode_size_bound _
      _ = 256 ^ L2 := by rw [hL2, List.length_map]
  obtain ⟨out, hout, hlen2, hlt2, hval2⟩ :=
    decodeLoop_alphabet D (List.replicate L2 0) hDlt hrep hfit2
  have houtval : Nat.ofDigits 256 out = V := by
    rw [hval2, ofDigits_replicate_zero, hVD]
    ring
  -- the output bytes
  have hstrip2 := buffer_strip 256 (by norm_num) out hlt2
  rw [houtval] at hstrip2
  -- identify the canonical digits of V with the stripped input
  have hdigitsV : (Nat.digits 256 V).reverse = bytes.dropWhile (· == 0) := by
    cases hrest : bytes.dropWhile (· == 0) with
    | nil =>
      have : V = 0 := by
        rw [hV, restVal, hrest]
        rfl
      rw [this]
      simp
    | cons r0 t =>
      have hmem : ∀ x ∈ (bytes.dropWhile (· == 0)).reverse, x < 256 := fun x hx =>
        h x ((List.dropWhile_sublist (· == 0)).subset (List.mem_reverse.mp hx))
      have hne : (bytes.dropWhile (· == 0)).reverse ≠ [] := by
        rw [hrest]
        simp
      have hlast : (bytes.dropWhile (· == 0)).reverse.getLast hne ≠ 0 := by
        have hh : (bytes.dropWhile (· == 0)).reverse.getLast? =
            (bytes.dropWhile (· == 0)).head? := by
          rw [← List.head?_reverse, List.reverse_reverse]
        rw [List.getLast?_eq_getLast_of_ne_nil hne] at hh
        have hhd : (bytes.dropWhile (· == 0)).head? = some r0 := by
          rw [hrest]
          rfl
        rw [hhd] at hh
        have hr0 : (bytes.dropWhile (· == 0)).reverse.getLast hne = r0 :=
          Option.some.inj hh
        rw [hr0]
        have := dropWhile_head_false (· == 0) bytes r0 t hrest
        simpa using this
      have := Nat.digits_ofDigits 256 (by norm_num)
        (bytes.dropWhile (· == 0)).reverse hmem (fun _ => hlast)
      rw [hV, restVal, this, List.reverse_reverse]
      exact hrest
  -- assemble
  simp only [DecodeBase58]
  rw [h1, h3, h4, List.length_replicate, hout]
  simp only [List.dropWhile_nil, List.isEmpty_nil, if_true]
  rw [hstrip2, hdigitsV]
  have hbytes : List.replicate z 0 ++ bytes.dropWhile (· == 0) = bytes := by
    have ht := takeWhile_beq_replicate 0 bytes
    calc List.replicate z 0 ++ bytes.dropWhile (· == 0)
        = bytes.takeWhile (· == 0) ++ bytes.dropWhile (· == 0) := by
          rw [hz, ← ht]
      _ = bytes := List.takeWhile_append_dropWhile _ _
  rw [hbytes]

/-! ### The carry assertions -/

/-- The leftover carries seen by `assert(carry == 0)` during
`EncodeBase58 bytes`, with the working buffer sized as in the source. -/
def encodeCarriesOf (bytes : List Nat) : List Nat :=
  encodeCarries
    (List.replicate ((bytes.dropWhile (· == 0)).length * 138 / 100 + 1) 0)
    (bytes.dropWhile (· == 0))

/-- The leftover carries seen by `assert(carry == 0)` during
`DecodeBase58 s`, with the working buffer sized as in the source. -/
def decodeCarriesOf (s : List Char) : List Nat :=
  let s1 := s.dropWhile isspaceC
  let s2 := s1.dropWhile (· == '1')
  decodeCarries (List.replicate (s2.length * 733 / 1000 + 1) 0) s2

theorem encodeCarriesOf_zero (bytes : List Nat) (h : ∀ b ∈ bytes, b < 256) :
    encodeCarriesOf bytes =
      List.replicate (bytes.dropWhile (· == 0)).length 0 := by
  have hrest : ∀ x ∈ bytes.dropWhile (· == 0), x < 256 := fun x hx =>
    h x ((List.dropWhile_sublist (· == 0)).subset hx)
  have hVlt : Nat.ofDigits 256 (bytes.dropWhile (· == 0)).reverse <
      256 ^ (bytes.dropWhile (· == 0)).length := by
    have := Nat.ofDigits_lt_base_pow_length (b := 256) (by norm_num)
      (l := (bytes.dropWhile (· == 0)).reverse)
      (fun x hx => hrest x (List.mem_reverse.mp hx))
    simpa using this
  set L := (bytes.dropWhile (· == 0)).length * 138 / 100 + 1 with hL
  have hrep : ∀ d ∈ List.replicate L (0 : Nat), d < 58 := fun d hd => by
    rw [List.eq_of_mem_replicate hd]; norm_num
  have hfit : Nat.ofDigits 58 (List.replicate L 0) *
        256 ^ (bytes.dropWhile (· == 0)).length +
        Nat.ofDigits 256 (bytes.dropWhile (· == 0)).reverse
      < 58 ^ (List.replicate L (0 : Nat)).length := by
    rw [ofDigits_replicate_zero, List.length_replicate]
    calc 0 * 256 ^ (bytes.dropWhile (· == 0)).length +
          Nat.ofDigits 256 (bytes.dropWhile (· == 0)).reverse
        = Nat.ofDigits 256 (bytes.dropWhile (· == 0)).reverse := by ring
      _ < 256 ^ (bytes.dropWhile (· == 0)).length := hVlt
      _ ≤ 58 ^ L := encode_size_bound _
  obtain ⟨_, _, _, hcar⟩ :=
    encodeLoop_spec (bytes.dropWhile (· == 0)) (List.replicate L 0) hrep hfit
  exact hcar

theorem decodeCarriesOf_zero (s : List Char) :
    ∀ x ∈ decodeCarriesOf s, x = 0 := by
  intro x hx
  refine decodeCarries_zero _ _ ?_ x hx
  rw [ofDigits_replicate_zero, List.length_replicate]
  calc (0 + 1) * 58 ^ ((s.dropWhile isspaceC).dropWhile (· == '1')).length
      = 58 ^ ((s.dropWhile isspaceC).dropWhile (· == '1')).length := by ring
    _ ≤ 256 ^ (((s.dropWhile isspaceC).dropWhile (· == '1')).length * 733 / 1000 + 1) :=
      decode_size_bound _

/-! ### More list helpers for the leading-`'1'` analysis -/

theorem takeWhile_eq_self_all {α : Type} (p : α → Bool) (l : List α)
    (h : ∀ x ∈ l, p x = true) : List.takeWhile p l = l := by
  induction l with
  | nil => rfl
  | cons a t ih =>
    rw [List.takeWhile_cons, if_pos (h a (List.mem_cons_self a t))]
    rw [ih fun x hx => h x (List.mem_cons_of_mem a hx)]

theorem dropWhile_append_cases {α : Type} (p : α → Bool) :
    ∀ (xs ys : List α),
      List.dropWhile p (xs ++ ys) = List.dropWhile p ys ∨
      List.dropWhile p (xs ++ ys) = List.dropWhile p xs ++ ys := by
  intro xs ys
  induction xs with
  | nil => left; rfl
  | cons a xs ih =>
    by_cases ha : p a = true
    · rcases ih with h | h
      · left
        rw [List.cons_append, List.dropWhile_cons, if_pos ha, h]
      · right
        rw [List.cons_append, List.dropWhile_cons, if_pos ha, h,
          List.dropWhile_cons, if_pos ha]
    · right
      rw [List.cons_append, List.dropWhile_cons, if_neg ha,
        List.dropWhile_cons, if_neg ha]
      rfl

theorem space_not_one (c : Char) (h : isspaceC c = true) : (c == '1') = false := by
  by_cases hc : c = '1'
  · subst hc
    rw [one_not_space] at h
    exact Bool.noConfusion h
  · simpa using hc

/-- If the first `k` entries of a byte list are zero and entry `k` (when it
exists; `getD` returns the nonzero default `1` past the end) is nonzero, the
run of leading zeros has length exactly `k`. -/
theorem takeWhile_zero_of_first_k :
    ∀ (k : Nat) (l : List Nat), l.take k = List.replicate k 0 → l.getD k 1 ≠ 0 →
      l.takeWhile (· == 0) = List.replicate k 0 := by
  intro k
  induction k with
  | zero =>
    intro l _ hk
    cases l with
    | nil => rfl
    | cons a t =>
      have ha : a ≠ 0 := by simpa [List.getD] using hk
      rw [List.takeWhile_cons, if_neg (by simpa using ha)]
      rfl
  | succ k ih =>
    intro l htake hk
    cases l with
    | nil => exact absurd htake (by simp [List.replicate_succ])
    | cons a t =>
      rw [List.take_succ_cons, List.replicate_succ] at htake
      have ha : a = 0 := (List.cons.injEq _ _ _ _ ▸ htake).1
      have ht : t.take k = List.replicate k 0 := (List.cons.injEq _ _ _ _ ▸ htake).2
      have hk' : t.getD k 1 ≠ 0 := by simpa [List.getD_cons_succ] using hk
      subst ha
      rw [List.takeWhile_cons, if_pos (by rfl), ih t ht hk', List.replicate_succ]

/-- The leading-`'1'` run of a canonical encoder output is exactly the
emitted zero marker: the first digit character, if any, is not `'1'`. -/
theorem takeWhile_ones_canonical (z V : Nat) :
    (List.replicate z '1' ++
        ((Nat.digits 58 V).reverse).map b58Char).takeWhile (· == '1') =
      List.replicate z '1' := by
  rw [takeWhile_append_all _ _ _ (fun x hx => by
    rw [List.eq_of_mem_replicate hx]; rfl)]
  have h2 : List.takeWhile (· == '1')
      (((Nat.digits 58 V).reverse).map b58Char) = [] := by
    cases hDc : (Nat.digits 58 V).reverse with
    | nil => rfl
    | cons d0 t =>
      have hd0 : d0 ≠ 0 := digits_reverse_head 58 V d0 t hDc
      have hd0lt : d0 < 58 := Nat.digits_lt_base (by norm_num)
        (List.mem_reverse.mp (by rw [hDc]; exact List.mem_cons_self _ _))
      have hne : b58Char d0 ≠ '1' := b58Char_ne_one ⟨d0, hd0lt⟩ hd0
      rw [List.map_cons, List.takeWhile_cons, if_neg (by simpa using hne)]
  rw [h2, List.append_nil]

/-! ### Success and failure of `DecodeBase58` -/

/-- `DecodeBase58` succeeds exactly on strings made of a (possibly empty)
run of leading whitespace, then alphabet characters only, then a (possibly
empty) run of trailing whitespace. -/
theorem decodeBase58_isSome_iff (s : List Char) :
    (∃ v, DecodeBase58 s = some v) ↔
      ∃ ws1 core ws2 : List Char, s = ws1 ++ core ++ ws2 ∧
        (∀ c ∈ ws1, isspaceC c = true) ∧ (∀ c ∈ core, c ∈ pszBase58) ∧
        (∀ c ∈ ws2, isspaceC c = true) := by
  constructor
  · rintro ⟨v, hv⟩
    simp only [DecodeBase58] at hv
    cases hloop : decodeLoop
        (List.replicate
          (((s.dropWhile isspaceC).dropWhile (· == '1')).length * 733 / 1000 + 1) 0)
        ((s.dropWhile isspaceC).dropWhile (· == '1')) with
    | none => rw [hloop] at hv; exact Option.noConfusion hv
    | some pr =>
      obtain ⟨out, rest⟩ := pr
      rw [hloop] at hv
      have hv' : (if (rest.dropWhile isspaceC).isEmpty = true then
          some (List.replicate
            ((s.dropWhile isspaceC).takeWhile (· == '1')).length 0 ++
            out.reverse.dropWhile (· == 0))
        else none) = some v := hv
      have hempty : (rest.dropWhile isspaceC).isEmpty = true := by
        by_contra hne
        rw [if_neg hne] at hv'
        exact Option.noConfusion hv'
      have hall : ∀ c ∈ ((s.dropWhile isspaceC).dropWhile (· == '1')).takeWhile
          (fun c => !isspaceC c), c ∈ pszBase58 := by
        by_contra hnall
        push_neg at hnall
        obtain ⟨c, hc1, hc2⟩ := hnall
        have : decodeLoop
            (List.replicate
              (((s.dropWhile isspaceC).dropWhile (· == '1')).length * 733 / 1000 + 1) 0)
            ((s.dropWhile isspaceC).dropWhile (· == '1')) = none :=
          (decodeLoop_none_iff _ _).mpr ⟨c, hc1, hc2⟩
        rw [this] at hloop
        exact Option.noConfusion hloop
      obtain ⟨out2, hout2⟩ := decodeLoop_stop
        ((s.dropWhile isspaceC).dropWhile (· == '1'))
        (List.replicate
          (((s.dropWhile isspaceC).dropWhile (· == '1')).length * 733 / 1000 + 1) 0)
        hall
      have hrest : rest = ((s.dropWhile isspaceC).dropWhile (· == '1')).dropWhile
          (fun c => !isspaceC c) := by
        rw [hloop] at hout2
        exact (Prod.ext_iff.mp (Option.some.inj hout2)).2
      refine ⟨s.takeWhile isspaceC,
        (s.dropWhile isspaceC).takeWhile (· == '1') ++
          ((s.dropWhile isspaceC).dropWhile (· == '1')).takeWhile (fun c => !isspaceC c),
        rest, ?_, ?_, ?_, ?_⟩
      · conv_lhs => rw [← List.takeWhile_append_dropWhile isspaceC s]
        rw [List.append_assoc]
        congr 1
        conv_lhs =>
          rw [← List.takeWhile_append_dropWhile (· == '1') (s.dropWhile isspaceC)]
        rw [List.append_assoc]
        congr 1
        rw [hrest]
        exact (List.takeWhile_append_dropWhile _ _).symm
      · exact fun c hc => List.mem_takeWhile_imp hc
      · intro c hc
        rcases List.mem_append.mp hc with h1 | h2
        · have h1' := List.mem_takeWhile_imp h1
          rw [show c = '1' from by simpa using h1']
          decide
        · exact hall c h2
      · intro c hc
        exact List.dropWhile_eq_nil_iff.mp (by
          cases hd : rest.dropWhile isspaceC with
          | nil => rfl
          | cons a t => rw [hd] at hempty; exact Bool.noConfusion hempty) c hc
  · rintro ⟨ws1, core, ws2, rfl, hws1, hcore, hws2⟩
    have hcore_ns : ∀ c ∈ core, isspaceC c = false := fun c hc =>
      mem_pszBase58_not_space c (hcore c hc)
    have hws2nil : ws2.dropWhile isspaceC = [] :=
      List.dropWhile_eq_nil_iff.mpr hws2
    cases core with
    | nil =>
      have hdrop : (ws1 ++ [] ++ ws2).dropWhile isspaceC = [] := by
        rw [List.append_nil]
        rw [dropWhile_append_all _ ws1 ws2 hws1]
        exact hws2nil
      refine ⟨[], ?_⟩
      simp only [DecodeBase58]
      rw [hdrop]
      rfl
    | cons c0 core' =>
      have hc0 : isspaceC c0 = false := hcore_ns c0 (List.mem_cons_self _ _)
      have hdrop1 : (ws1 ++ (c0 :: core') ++ ws2).dropWhile isspaceC =
          (c0 :: core') ++ ws2 := by
        rw [List.append_assoc, dropWhile_append_all _ ws1 _ hws1, List.cons_append,
          List.dropWhile_cons, hc0]
        simp
      obtain ⟨core2, hs2eq, hcore2⟩ :
          ∃ core2, ((c0 :: core') ++ ws2).dropWhile (· == '1') = core2 ++ ws2 ∧
            ∀ c ∈ core2, c ∈ pszBase58 := by
        rcases dropWhile_append_cases (· == '1') (c0 :: core') ws2 with hcs | hcs
        · refine ⟨[], ?_, by intro c hc; simp at hc⟩
          rw [hcs, dropWhile_eq_self_all _ ws2 (fun x hx => space_not_one x (hws2 x hx))]
          rfl
        · refine ⟨(c0 :: core').dropWhile (· == '1'), hcs, ?_⟩
          intro c hc
          exact hcore c ((List.dropWhile_sublist (· == '1')).subset hc)
      have hcore2_ns : ∀ c ∈ core2, (!isspaceC c) = true := fun c hc => by
        rw [mem_pszBase58_not_space c (hcore2 c hc)]
        rfl
      have htw : (((c0 :: core') ++ ws2).dropWhile (· == '1')).takeWhile
          (fun c => !isspaceC c) = core2 := by
        rw [hs2eq, takeWhile_append_all _ core2 ws2 hcore2_ns,
          takeWhile_eq_nil_all _ ws2 (fun x hx => by rw [hws2 x hx]; rfl),
          List.append_nil]
      have hdw : (((c0 :: core') ++ ws2).dropWhile (· == '1')).dropWhile
          (fun c => !isspaceC c) = ws2 := by
        rw [hs2eq, dropWhile_append_all _ core2 ws2 hcore2_ns]
        exact dropWhile_eq_self_all _ ws2 (fun x hx => by rw [hws2 x hx]; rfl)
      obtain ⟨out, hout⟩ := decodeLoop_stop
        (((c0 :: core') ++ ws2).dropWhile (· == '1'))
        (List.replicate
          ((((c0 :: core') ++ ws2).dropWhile (· == '1')).length * 733 / 1000 + 1) 0)
        (by rw [htw]; exact hcore2)
      rw [hdw] at hout
      refine ⟨List.replicate (((c0 :: core') ++ ws2).takeWhile (· == '1')).length 0 ++
        out.reverse.dropWhile (· == 0), ?_⟩
      simp only [DecodeBase58]
      rw [hdrop1, hout]
      show (if (ws2.dropWhile isspaceC).isEmpty = true then
          some (List.replicate (((c0 :: core') ++ ws2).takeWhile (· == '1')).length 0 ++
            out.reverse.dropWhile (· == 0))
        else none) = _
      rw [hws2nil]
      rfl

/-! ### The Base58Check layer

The hash collaborator (`Hash` in the source, declared in `hash.h`) is an
external dependency; following the specification it is an opaque function
from byte sequences to a 32-byte digest, passed here as a parameter `H`.
Only its first 4 bytes are consumed. -/

/-- `EncodeBase58Check(vchIn)`: append the first 4 bytes of `Hash(vch)` and
Base58-encode the result. -/
def EncodeBase58Check (H : List Nat → List Nat) (vchIn : List Nat) : List Char :=
  EncodeBase58 (vchIn ++ (H vchIn).take 4)

/-- `DecodeBase58Check(psz, vchRet)`: the source leaves `vchRet` untouched
when the inner `DecodeBase58` fails and then clears it, clears it on a short
decode or a checksum mismatch, and otherwise drops the last 4 bytes.  The
returned pair is `(return value, final contents of vchRet)`; the `vchRet`
argument models the contents of the output vector before the call. -/
def DecodeBase58Check (H : List Nat → List Nat) (s : List Char)
    (vchRet : List Nat) : Bool × List Nat :=
  match DecodeBase58 s with
  | none => (false, [])
  | some v =>
    if v.length < 4 then (false, [])
    else if (H (v.take (v.length - 4))).take 4 == v.drop (v.length - 4) then
      (true, v.take (v.length - 4))
    else (false, [])

/-- The state of a `CBase58Data` object: a version prefix and a data
payload. -/
structure CBase58Data where
  vchVersion : List Nat
  vchData : List Nat
deriving DecidableEq

/-- `CBase58Data::SetString(psz, nVersionBytes)`: Base58Check-decode into a
fresh temporary vector, fail (clearing both fields) when decoding fails or
the decoded length is below `nVersionBytes`, otherwise split the decoded
bytes into version and data.  `prev` models the fields of the object before
the call; the returned pair is `(return value, final fields)`. -/
def CBase58Data.SetString (H : List Nat → List Nat) (s : List Char)
    (nVersionBytes : Nat) (prev : CBase58Data) : Bool × CBase58Data :=
  let r := DecodeBase58Check H s []
  if !r.1 || r.2.length < nVersionBytes then
    (false, ⟨[], []⟩)
  else
    (true, ⟨r.2.take nVersionBytes, r.2.drop nVersionBytes⟩)

/-- `CBase58Data::ToString()`: Base58Check-encode `vchVersion ++ vchData`. -/
def CBase58Data.ToString (H : List Nat → List Nat) (d : CBase58Data) : List Char :=
  EncodeBase58Check H (d.vchVersion ++ d.vchData)

/-- Modelled from the spec: the `CChainParams` collaborator (`chainparams.h`,
not under `src/`) supplies one version-prefix byte sequence per symbolic
role (`PUBKEY_ADDRESS`, `SCRIPT_ADDRESS`, `SECRET_KEY`), queried through
`Params().Base58Prefix(...)` in the source. -/
structure CChainParams where
  pubkeyAddr : List Nat
  scriptAddr : List Nat
  secretKey : List Nat

/-- The literal deny-list built into `CBitcoinAddress::IsValid()` ("exit
scam dev wallets"), in source order. -/
def bannedAddresses : List (List Char) :=
  ["BCcBZ6B5sTtZPS4FhJ2PaToAayNahvKeKb".data,
   "BN361g4da5japPhLx7wWqc11HxiVPbdyeF".data,
   "BKKnskrXJHoNGGDcgguWQoWWUi7LjBq13b".data,
   "BCdxPTgRkypzckZSM4xNMsRELJfCT7nDWF".data,
   "BGkhUL365iHCkyFW9jEQk8bL25ydNR6sca".data,
   "BKVdUtiXPMCZAJ7fA5SExkfdDk5eeZEAwy".data,
   "BSWAQpFvvKLTvhm6SmPFNmKqYChQgBjUBN".data,
   "B7j6hRMhwFt1XmSgqBKW8Y3X9G9qxF7Ejc".data,
   "BApTS1gS3sTuLzQxPC7EdowKrM68uMkhML".data,
   "BTBhrSJ5bogWjgpvyiz7RZ6krnmrt8RsuK".data,
   "BQVW7gDSvLus3wcrzCfN6ZWERs3buoLdNN".data,
   "BBtQEdH62gQeqY72qkHohLhfd2DtFcXXbz".data,
   "BFx4QfBMVCVC114tRNec6QXa7YkbUCTPs6".data,
   "B6khfsLHp8u3aKwwYPqGxBwW4pkbQSWiJ1".data,
   "BJoPTtpLC3KGjaKX7TRkqvJj9VwEy1DiYY".data,
   "BPTJkyTa6i8ugKwBoVPzT6hW9j2Es5H8qZ".data,
   "BLBBUjqoro3AJLTMrYyog1HrgV7NRaMgZE".data,
   "B9a7Ghg6XPAiRyV414pGhk8vptFopiqbmk".data,
   "B75B3UcYRm7We2YnRGPnZuEKWgELqw4pBL".data,
   "BCFnH2vSJ68ykvttcDm3etU2HYaftVzLr5".data,
   "B8EmGwSEq1ssYpvpQCQVG6NKDARNKpQ4wP".data,
   "BHshwsJnbz78uobuNM2witARiAty6BGP2Z".data,
   "BD5SfecatHpb9UqAQ2Aa7odDMKe7PQ9EnP".data,
   "BT7HaPWCm8P3LhTDUyqJxMSZakRQAgCnJi".data,
   "BQe7iKAGtGd8Z94AaXEebBLP3PmHXjk717".data,
   "BQ1dzMP2q2NgVqVUFqKoRK14jVjw842ew8".data,
   "BJPXescum2GUaYb94GVDSSZvSth75tPjEj".data,
   "BA4gm1gUxiua3cqmpPd7XxxGyiPhYp8cYX".data,
   "BD8AWJfPdPsWdyy7WhYkohVnYP74kbtomH".data,
   "BR3tfmAbqJoxXMBKHME6VXebFMu3ChQUxC".data,
   "BNvtKPSaMgbsCFYBaS8TaLjeUD5bw5jkwQ".data,
   "BEymBACGirRfvmUE883jgyGiaCPzPKMD8p".data,
   "BRLZzi4oRzwawtQeXJVRRG5rbsusb2Z3wJ".data,
   "BPr5TUt8jC2LnjcSFn3DGMuRZbDMdrrhgx".data,
   "BQKEgmKbyRBmNUeZs18k5BkdNtszFPb6uQ".data,
   "BJhbfUmTcEVaohpdR4cCVHc6WvkF4UFjHc".data,
   "BBEMde2Ts96YyCbrgaYs3TaCaPuQSq6h9d".data,
   "BCVVhnq1XPuH3UQy8soSqNjrtNfz9HGQYW".data,
   "BA8K4Yi9MwrTvasTqf8iYeSyxBKVh5VXc5".data,
   "B581HmueeRTDVFusZMbnnVcYmdGdauBQJ9".data,
   "BEdMd2aC1V4zrAjZYBYT6o6sfdcMmEUeSz".data,
   "BRgbrahbjeuCKz58DKDiJWin8vhSch38Yx".data,
   "BDzeDLvJZxwF1kNLcTGK3YSYre5MaKA566".data,
   "B7B1hua6wKzcxYXjz2JpSxdTcS52hkkCBw".data,
   "BRYhT1HjmgB1i7N56umYgFTrEWbTZUZCay".data,
   "BDjzrgBzd5yZqQzF3VRLM5BndVFZCEGfhL".data,
   "BCaMsajgcks9b2Agm8gyxQb6j1mmSSQ4Q4".data,
   "BK8e3WnvSEXMcCXdFWoyLxZGkJynZnDNKU".data,
   "BEiJVJfvfY8MDwCA7Zgy6z8RaL6pGwDxpv".data,
   "B53ZLPzbXftcxV5gQTTRJV4RiA6F3ma77m".data]

namespace CBitcoinAddress

/-- `CBitcoinAddress::IsValid(const CChainParams&)`: data is exactly 20
bytes and the version equals one of the two address prefixes. -/
def IsValidWith (params : CChainParams) (d : CBase58Data) : Bool :=
  (d.vchData.length == 20) &&
    (d.vchVersion == params.pubkeyAddr || d.vchVersion == params.scriptAddr)

/-- `CBitcoinAddress::IsValid()`: first compare the encoded string against
the literal deny-list ("exit scam dev wallets"), then defer to
`IsValid(Params())`.  The global `Params()` and the hash collaborator are
passed as parameters. -/
def IsValid (H : List Nat → List Nat) (params : CChainParams)
    (d : CBase58Data) : Bool :=
  if bannedAddresses.contains (CBase58Data.ToString H d) then false
  else IsValidWith params d

end CBitcoinAddress

namespace CBitcoinSecret

/-- `CBitcoinSecret::IsValid()`: data is 32 bytes, or 33 bytes with a
trailing `1` marker, and the version equals the secret-key prefix. -/
def IsValid (params : CChainParams) (d : CBase58Data) : Bool :=
  (d.vchData.length == 32 ||
      (d.vchData.length == 33 && d.vchData.getD 32 0 == 1)) &&
    (d.vchVersion == params.secretKey)

/-- `CBitcoinSecret::SetString(pszSecret)`: run the base-class `SetString`
and then `IsValid`.  Modelled from the spec: the declaration in `base58.h`
(not under `src/`) fixes the version length of the one-argument
`CBase58Data::SetString` at one byte, matching the specification's
one-byte version prefix for secret keys. -/
def SetString (H : List Nat → List Nat) (params : CChainParams)
    (s : List Char) (prev : CBase58Data) : Bool × CBase58Data :=
  let r := CBase58Data.SetString H s 1 prev
  (r.1 && IsValid params r.2, r.2)

/-- `CBitcoinSecret::GetKey()`: the first 32 data bytes, and the compressed
flag `vchData.size() > 32 && vchData[32] == 1`. -/
def GetKey (d : CBase58Data) : List Nat × Bool :=
  (d.vchData.take 32, decide (32 < d.vchData.length) && (d.vchData.getD 32 0 == 1))

end CBitcoinSecret

/-! ### Claim theorems -/

/-- C1: for every byte sequence `b`, decoding the Base58 encoding of `b`
succeeds and returns `b`: `DecodeBase58(EncodeBase58(b)) == b`. -/
theorem base58_roundtrip (b : List Nat) (hb : ∀ x ∈ b, x < 256) :
    DecodeBase58 (EncodeBase58 b) = some b :=
  decode_of_encode b hb

theorem base58_roundtrip_w :
    DecodeBase58 (EncodeBase58 [0, 0, 7, 255]) = some [0, 0, 7, 255] :=
  base58_roundtrip [0, 0, 7, 255] (by decide)

/-- C2: for every byte sequence `b` and every (deterministic) 32-byte hash
collaborator `H`, `DecodeBase58Check(EncodeBase58Check(b))` succeeds and
returns `b`, whatever the output vector held before the call. -/
theorem base58check_roundtrip (H : List Nat → List Nat) (b v0 : List Nat)
    (hH : ∀ x, (H x).length = 32 ∧ ∀ d ∈ H x, d < 256)
    (hb : ∀ x ∈ b, x < 256) :
    DecodeBase58Check H (EncodeBase58Check H b) v0 = (true, b) := by
  have hlen4 : ((H b).take 4).length = 4 := by
    rw [List.length_take, (hH b).1]
    omega
  have hall : ∀ x ∈ b ++ (H b).take 4, x < 256 := by
    intro x hx
    rcases List.mem_append.mp hx with h1 | h2
    · exact hb x h1
    · exact (hH b).2 x (List.mem_of_mem_take h2)
  have hdec := decode_of_encode (b ++ (H b).take 4) hall
  have hlen : (b ++ (H b).take 4).length = b.length + 4 := by
    rw [List.length_append, hlen4]
  simp only [DecodeBase58Check, EncodeBase58Check, hdec]
  rw [if_neg (by omega)]
  have hsub : (b ++ (H b).take 4).length - 4 = b.length := by omega
  rw [hsub, List.take_left, List.drop_left]
  rw [if_pos (by simp)]

theorem base58check_roundtrip_w :
    DecodeBase58Check (fun _ => List.replicate 32 0)
        (EncodeBase58Check (fun _ => List.replicate 32 0) [1, 2, 3]) [9] =
      (true, [1, 2, 3]) :=
  base58check_roundtrip (fun _ => List.replicate 32 0) [1, 2, 3] [9]
    (fun x => ⟨by simp, fun d hd => by rw [List.eq_of_mem_replicate hd]; norm_num⟩)
    (by decide)

/-- C4: `DecodeBase58Check` fails exactly when the Base58 decode fails, the
decoded sequence is shorter than 4 bytes, or its last 4 bytes differ from
the first 4 bytes of the hash of the preceding bytes; on success it returns
the decoded bytes with the final 4 checksum bytes stripped. -/
theorem decodeCheck_error_spec (H : List Nat → List Nat) (s : List Char)
    (v0 : List Nat) :
    ((DecodeBase58Check H s v0).1 = false ↔
      DecodeBase58 s = none ∨
        ∃ v, DecodeBase58 s = some v ∧
          (v.length < 4 ∨
            v.drop (v.length - 4) ≠ (H (v.take (v.length - 4))).take 4)) ∧
    (∀ v, DecodeBase58 s = some v → (DecodeBase58Check H s v0).1 = true →
      (DecodeBase58Check H s v0).2 = v.take (v.length - 4)) := by
  cases hdec : DecodeBase58 s with
  | none =>
    have hr : DecodeBase58Check H s v0 = (false, []) := by
      simp [DecodeBase58Check, hdec]
    refine ⟨?_, ?_⟩
    · rw [hr]
      exact iff_of_true rfl (Or.inl rfl)
    · intro v hv
      exact absurd hv (by simp)
  | some v =>
    by_cases h4 : v.length < 4
    · have hr : DecodeBase58Check H s v0 = (false, []) := by
        simp [DecodeBase58Check, hdec, h4]
      refine ⟨?_, ?_⟩
      · rw [hr]
        exact iff_of_true rfl (Or.inr ⟨v, rfl, Or.inl h4⟩)
      · intro v' hv'
        obtain rfl : v = v' := Option.some.inj hv'
        rw [hr]
        intro hfalse
        exact absurd hfalse (by simp)
    · by_cases hck :
          ((H (v.take (v.length - 4))).take 4 == v.drop (v.length - 4)) = true
      · have heq : v.drop (v.length - 4) = (H (v.take (v.length - 4))).take 4 :=
          (eq_of_beq hck).symm
        have hr : DecodeBase58Check H s v0 = (true, v.take (v.length - 4)) := by
          simp only [DecodeBase58Check, hdec]
          rw [if_neg h4, if_pos hck]
        refine ⟨?_, ?_⟩
        · rw [hr]
          apply iff_of_false (by simp)
          rintro (hnone | ⟨v', hv', hbad⟩)
          · exact Option.noConfusion hnone
          · obtain rfl : v = v' := Option.some.inj hv'
            rcases hbad with hlen | hne
            · exact h4 hlen
            · exact hne heq
        · intro v' hv' _
          obtain rfl : v = v' := Option.some.inj hv'
          rw [hr]
      · have hne : v.drop (v.length - 4) ≠ (H (v.take (v.length - 4))).take 4 := by
          intro heq
          refine hck ?_
          rw [heq]
          exact beq_self_eq_true _
        have hr : DecodeBase58Check H s v0 = (false, []) := by
          simp only [DecodeBase58Check, hdec]
          rw [if_neg h4, if_neg hck]
        refine ⟨?_, ?_⟩
        · rw [hr]
          exact iff_of_true rfl (Or.inr ⟨v, rfl, Or.inr hne⟩)
        · intro v' hv'
          obtain rfl : v = v' := Option.some.inj hv'
          rw [hr]
          intro hfalse
          exact absurd hfalse (by simp)

/-- C9: the container's `SetString` fails exactly when Base58Check decoding
fails or the decoded length is below `nVersionBytes`; on success the stored
version is the first `nVersionBytes` decoded bytes and the stored data is
the remainder. -/
theorem setString_spec (H : List Nat → List Nat) (s : List Char)
    (N : Nat) (prev : CBase58Data) :
    ((CBase58Data.SetString H s N prev).1 = false ↔
      (DecodeBase58Check H s []).1 = false ∨
        (DecodeBase58Check H s []).2.length < N) ∧
    ((CBase58Data.SetString H s N prev).1 = true →
      (CBase58Data.SetString H s N prev).2 =
        ⟨(DecodeBase58Check H s []).2.take N, (DecodeBase58Check H s []).2.drop N⟩) := by
  by_cases hc : (!(DecodeBase58Check H s []).1 ||
      decide ((DecodeBase58Check H s []).2.length < N)) = true
  · have hc' : (DecodeBase58Check H s []).1 = false ∨
        (DecodeBase58Check H s []).2.length < N := by simpa using hc
    have hr : CBase58Data.SetString H s N prev = (false, ⟨[], []⟩) := by
      simp only [CBase58Data.SetString]
      rw [if_pos hc]
    refine ⟨?_, ?_⟩
    · rw [hr]
      exact iff_of_true rfl hc'
    · rw [hr]
      intro hfalse
      exact absurd hfalse (by simp)
  · have hc' : ¬((DecodeBase58Check H s []).1 = false ∨
        (DecodeBase58Check H s []).2.length < N) := by simpa using hc
    have hr : CBase58Data.SetString H s N prev =
        (true, ⟨(DecodeBase58Check H s []).2.take N,
          (DecodeBase58Check H s []).2.drop N⟩) := by
      simp only [CBase58Data.SetString]
      rw [if_neg hc]
    refine ⟨?_, ?_⟩
    · rw [hr]
      exact iff_of_false (by simp) hc'
    · rw [hr]
      intro _
      rfl

/-- C10: on every failure path the decode entry points leave their outputs
empty: a failed `DecodeBase58Check` leaves the output vector empty and a
failed `CBase58Data::SetString` leaves both stored fields empty, regardless
of their contents before the call. -/
theorem decode_failure_clears (H : List Nat → List Nat) (s : List Char)
    (v0 : List Nat) (N : Nat) (prev : CBase58Data) :
    ((DecodeBase58Check H s v0).1 = false → (DecodeBase58Check H s v0).2 = []) ∧
    ((CBase58Data.SetString H s N prev).1 = false →
      (CBase58Data.SetString H s N prev).2.vchVersion = [] ∧
      (CBase58Data.SetString H s N prev).2.vchData = []) := by
  constructor
  · cases hdec : DecodeBase58 s with
    | none =>
      intro _
      simp [DecodeBase58Check, hdec]
    | some v =>
      by_cases h4 : v.length < 4
      · intro _
        simp [DecodeBase58Check, hdec, h4]
      · by_cases hck :
            ((H (v.take (v.length - 4))).take 4 == v.drop (v.length - 4)) = true
        · have hr : DecodeBase58Check H s v0 = (true, v.take (v.length - 4)) := by
            simp only [DecodeBase58Check, hdec]
            rw [if_neg h4, if_pos hck]
          rw [hr]
          intro hfalse
          exact absurd hfalse (by simp)
        · have hr : DecodeBase58Check H s v0 = (false, []) := by
            simp only [DecodeBase58Check, hdec]
            rw [if_neg h4, if_neg hck]
          rw [hr]
          intro _
          rfl
  · by_cases hc : (!(DecodeBase58Check H s []).1 ||
        decide ((DecodeBase58Check H s []).2.length < N)) = true
    · have hr : CBase58Data.SetString H s N prev = (false, ⟨[], []⟩) := by
        simp only [CBase58Data.SetString]
        rw [if_pos hc]
      rw [hr]
      intro _
      exact ⟨rfl, rfl⟩
    · have hr : CBase58Data.SetString H s N prev =
          (true, ⟨(DecodeBase58Check H s []).2.take N,
            (DecodeBase58Check H s []).2.drop N⟩) := by
        simp only [CBase58Data.SetString]
        rw [if_neg hc]
      rw [hr]
      intro hfalse
      exact absurd hfalse (by simp)

/-- C5: in both base-conversion loops the leftover carry after each fully
propagated input byte (resp. alphabet character) is exactly zero, with the
working buffers sized by the `138/100` (resp. `733/1000`) rational bound
plus one, so the carry assertion can never fire. -/
theorem carries_always_zero :
    (∀ bytes : List Nat, (∀ b ∈ bytes, b < 256) →
      encodeCarriesOf bytes =
        List.replicate (bytes.dropWhile (· == 0)).length 0) ∧
    (∀ s : List Char, ∀ x ∈ decodeCarriesOf s, x = 0) :=
  ⟨encodeCarriesOf_zero, decodeCarriesOf_zero⟩

/-- C6: a byte sequence whose first `k` bytes are zero and whose `(k+1)`-th
byte (when present) is nonzero encodes to a string with exactly `k` leading
`'1'` characters; the empty sequence encodes to the empty string and an
all-zero sequence of length `n` encodes to `n` copies of `'1'`. -/
theorem encode_leading_ones (bytes : List Nat) (k : Nat)
    (hb : ∀ x ∈ bytes, x < 256)
    (hzeros : bytes.take k = List.replicate k 0)
    (hnext : bytes.getD k 1 ≠ 0) :
    ((EncodeBase58 bytes).takeWhile (· == '1')).length = k ∧
    EncodeBase58 [] = [] ∧
    (∀ n, EncodeBase58 (List.replicate n 0) = List.replicate n '1') := by
  refine ⟨?_, rfl, ?_⟩
  · rw [encode_characterization bytes hb, takeWhile_ones_canonical,
      List.length_replicate, takeWhile_zero_of_first_k k bytes hzeros hnext,
      List.length_replicate]
  · intro n
    have hall : ∀ x ∈ List.replicate n (0 : Nat), x < 256 := fun x hx => by
      rw [List.eq_of_mem_replicate hx]; norm_num
    rw [encode_characterization (List.replicate n 0) hall]
    have h1 : (List.replicate n (0 : Nat)).takeWhile (· == 0) =
        List.replicate n 0 :=
      takeWhile_eq_self_all _ _ (fun x hx => by
        rw [List.eq_of_mem_replicate hx]; rfl)
    have h2 : (List.replicate n (0 : Nat)).dropWhile (· == 0) = [] :=
      List.dropWhile_eq_nil_iff.mpr (fun x hx => by
        rw [List.eq_of_mem_replicate hx]; rfl)
    rw [h1, List.length_replicate]
    rw [show restVal (List.replicate n 0) = 0 by rw [restVal, h2]; rfl]
    simp

theorem encode_leading_ones_w :
    ((EncodeBase58 [0, 0, 5]).takeWhile (· == '1')).length = 2 :=
  (encode_leading_ones [0, 0, 5] 2 (by decide) (by decide) (by decide)).1

/-- C7: `DecodeBase58` succeeds exactly on the strings consisting of
optional leading whitespace, then alphabet characters only, then optional
trailing whitespace; on any other string (an out-of-alphabet character, or
a non-whitespace character after embedded whitespace) it fails. -/
theorem decode_error_spec (s : List Char) :
    (∃ v, DecodeBase58 s = some v) ↔
      ∃ ws1 core ws2 : List Char, s = ws1 ++ core ++ ws2 ∧
        (∀ c ∈ ws1, isspaceC c = true) ∧ (∀ c ∈ core, c ∈ pszBase58) ∧
        (∀ c ∈ ws2, isspaceC c = true) :=
  decodeBase58_isSome_iff s

/-- C8: secret-key decoding (`SetString` followed by the validity check)
succeeds only when the decoded data has length exactly 32, or exactly 33
with a trailing `1` byte, and the version equals the secret-key prefix; on
success `GetKey` returns the first 32 data bytes with the compressed flag
set exactly when the data length is 33. -/
theorem secret_setString_spec (H : List Nat → List Nat) (params : CChainParams)
    (s : List Char) (prev : CBase58Data) :
    (CBitcoinSecret.SetString H params s prev).1 = true →
      ((CBitcoinSecret.SetString H params s prev).2.vchData.length = 32 ∨
        ((CBitcoinSecret.SetString H params s prev).2.vchData.length = 33 ∧
          (CBitcoinSecret.SetString H params s prev).2.vchData.getD 32 0 = 1)) ∧
      (CBitcoinSecret.SetString H params s prev).2.vchVersion = params.secretKey ∧
      (CBitcoinSecret.GetKey (CBitcoinSecret.SetString H params s prev).2).1 =
        (CBitcoinSecret.SetString H params s prev).2.vchData.take 32 ∧
      ((CBitcoinSecret.GetKey (CBitcoinSecret.SetString H params s prev).2).2 = true ↔
        (CBitcoinSecret.SetString H params s prev).2.vchData.length = 33) := by
  intro hok
  have hvalid : CBitcoinSecret.IsValid params
      (CBase58Data.SetString H s 1 prev).2 = true := by
    have : (CBitcoinSecret.SetString H params s prev).1 =
        ((CBase58Data.SetString H s 1 prev).1 &&
          CBitcoinSecret.IsValid params (CBase58Data.SetString H s 1 prev).2) := rfl
    rw [this] at hok
    have hok' : (CBase58Data.SetString H s 1 prev).1 = true ∧
        CBitcoinSecret.IsValid params (CBase58Data.SetString H s 1 prev).2 = true := by
      simpa using hok
    exact hok'.2
  have hd : (CBitcoinSecret.SetString H params s prev).2 =
      (CBase58Data.SetString H s 1 prev).2 := rfl
  rw [CBitcoinSecret.IsValid, Bool.and_eq_true] at hvalid
  obtain ⟨hlen, hver⟩ := hvalid
  have hver' : (CBase58Data.SetString H s 1 prev).2.vchVersion =
      params.secretKey := by simpa using hver
  rw [Bool.or_eq_true, Bool.and_eq_true] at hlen
  have hlen' : (CBase58Data.SetString H s 1 prev).2.vchData.length = 32 ∨
      ((CBase58Data.SetString H s 1 prev).2.vchData.length = 33 ∧
        (CBase58Data.SetString H s 1 prev).2.vchData.getD 32 0 = 1) := by
    rcases hlen with h | ⟨h1, h2⟩
    · exact Or.inl (by simpa using h)
    · exact Or.inr ⟨by simpa using h1, by simpa using h2⟩
  rw [hd]
  refine ⟨hlen', hver', rfl, ?_⟩
  rw [CBitcoinSecret.GetKey]
  rcases hlen' with h32 | ⟨h33, hflag⟩
  · constructor
    · intro habs
      rw [Bool.and_eq_true] at habs
      have := of_decide_eq_true habs.1
      omega
    · intro habs
      omega
  · constructor
    · intro _
      exact h33
    · intro _
      rw [Bool.and_eq_true]
      refine ⟨decide_eq_true (by omega), by simpa using hflag⟩

/-! ### Concrete instances for the witnesses and the deny-list
counterexample -/

/-- A trivial stand-in for the external hash collaborator: the all-zero
32-byte digest. -/
def hashZero : List Nat → List Nat := fun _ => List.replicate 32 0

/-- Concrete chain parameters for the checks below: version byte 25 for
key-hash addresses (the version byte the deny-listed strings carry), 85
for script-hash addresses and 128 for secret keys. -/
def cexParams : CChainParams := ⟨[25], [85], [128]⟩

/-- The 20-byte hash carried by the first deny-listed address string. -/
def cexData : List Nat :=
  [89, 121, 180, 207, 188, 98, 215, 138, 25, 124, 33, 95, 70, 207, 68,
   241, 28, 117, 255, 139]

/-- The address value whose text form is the first deny-listed string
(under `cexHash` as the hash collaborator). -/
def cexAddr : CBase58Data := ⟨[25], cexData⟩

/-- A hash collaborator whose first four digest bytes reproduce the
checksum of the first deny-listed string. -/
def cexHash : List Nat → List Nat := fun _ => [69, 191, 199, 74] ++ List.replicate 28 0

/-- A valid secret-key string: version byte 128 over an all-zero 32-byte
key, checksummed with `hashZero`. -/
def secretSample : List Char := EncodeBase58Check hashZero ([128] ++ List.replicate 32 0)

/-- C3, counterexample: an address value whose data is exactly 20 bytes
and whose version equals the configured key-hash prefix, yet whose
parameterless `IsValid()` returns `false`, because its text form is on the
hardcoded deny-list.  This refutes the claim that no condition other than
length and version affects the result. -/
theorem address_isValid_denylist_cex :
    cexAddr.vchData.length = 20 ∧
    cexAddr.vchVersion = cexParams.pubkeyAddr ∧
    CBitcoinAddress.IsValidWith cexParams cexAddr = true ∧
    CBitcoinAddress.IsValid cexHash cexParams cexAddr = false := by
  refine ⟨by decide, by decide, by decide, ?_⟩
  decide

/-- C3, amended: `IsValid(params)` is true exactly when the data is 20
bytes and the version is one of the two address prefixes; the
parameterless `IsValid()` additionally returns `false` whenever the
address's text form is one of the 50 hardcoded deny-listed strings, and
agrees with `IsValid(params)` otherwise. -/
theorem address_isValid_spec (H : List Nat → List Nat) (params : CChainParams)
    (d : CBase58Data) :
    (CBitcoinAddress.IsValidWith params d = true ↔
      (d.vchData.length = 20 ∧
        (d.vchVersion = params.pubkeyAddr ∨ d.vchVersion = params.scriptAddr))) ∧
    (bannedAddresses.contains (CBase58Data.ToString H d) = false →
      CBitcoinAddress.IsValid H params d =
        CBitcoinAddress.IsValidWith params d) ∧
    (bannedAddresses.contains (CBase58Data.ToString H d) = true →
      CBitcoinAddress.IsValid H params d = false) := by
  refine ⟨?_, ?_, ?_⟩
  · rw [CBitcoinAddress.IsValidWith, Bool.and_eq_true, Bool.or_eq_true]
    constructor
    · rintro ⟨h1, h2⟩
      refine ⟨by simpa using h1, ?_⟩
      rcases h2 with h | h
      · exact Or.inl (by simpa using h)
      · exact Or.inr (by simpa using h)
    · rintro ⟨h1, h2⟩
      refine ⟨by simpa using h1, ?_⟩
      rcases h2 with h | h
      · exact Or.inl (by simpa using h)
      · exact Or.inr (by simpa using h)
  · intro hno
    rw [CBitcoinAddress.IsValid,
      if_neg (show ¬bannedAddresses.contains (CBase58Data.ToString H d) = true by
        rw [hno]; exact Bool.false_ne_true)]
  · intro hyes
    rw [CBitcoinAddress.IsValid, if_pos hyes]

set_option maxRecDepth 20000 in
theorem secret_setString_spec_w :
    ((CBitcoinSecret.SetString hashZero cexParams secretSample
        ⟨[7], [8]⟩).2.vchData.length = 32 ∨
      ((CBitcoinSecret.SetString hashZero cexParams secretSample
          ⟨[7], [8]⟩).2.vchData.length = 33 ∧
        (CBitcoinSecret.SetString hashZero cexParams secretSample
          ⟨[7], [8]⟩).2.vchData.getD 32 0 = 1)) ∧
    (CBitcoinSecret.SetString hashZero cexParams secretSample
        ⟨[7], [8]⟩).2.vchVersion = cexParams.secretKey ∧
    (CBitcoinSecret.GetKey (CBitcoinSecret.SetString hashZero cexParams
        secretSample ⟨[7], [8]⟩).2).1 =
      (CBitcoinSecret.SetString hashZero cexParams secretSample
        ⟨[7], [8]⟩).2.vchData.take 32 ∧
    ((CBitcoinSecret.GetKey (CBitcoinSecret.SetString hashZero cexParams
        secretSample ⟨[7], [8]⟩).2).2 = true ↔
      (CBitcoinSecret.SetString hashZero cexParams secretSample
        ⟨[7], [8]⟩).2.vchData.length = 33) :=
  secret_setString_spec hashZero cexParams secretSample ⟨[7], [8]⟩ (by decide)

end B58
